import Mathlib

/-!
Verification of the TUPA document-ingestion pipeline
(`document_processor.py`): the text normalizer `clean_text`, the
paragraph-greedy chunker `chunk_text`, and the source-name derivation of
`process_pdf_file`.  Strings are embedded as `List Char`; Python string
operations (regex whitespace collapse, `split`, `strip`, `join`,
`replace`) are given as executable Lean functions translated from the
source.
-/

namespace TupaRag

/-- Whitespace predicate matching Python's regex class and default
`str.strip` on the ASCII range. -/
def isWs (c : Char) : Bool :=
  c == ' ' || c == '\t' || c == '\n' || c == '\r' || c == '\x0b' || c == '\x0c'

/-- The NUL character removed by `clean_text`. -/
def nullChar : Char := '\x00'

/-- Embedding of the regex pass of line 72 of the source,
re.sub of one-or-more whitespace to a single space: every maximal run of
whitespace characters becomes one space. -/
def collapseWs : List Char → List Char
  | [] => []
  | [c] => if isWs c then [' '] else [c]
  | a :: b :: rest =>
    if isWs a && isWs b then collapseWs (b :: rest)
    else (if isWs a then ' ' else a) :: collapseWs (b :: rest)

/-- Embedding of the regex pass of line 73 of the source,
re.sub of one-or-more newlines to a single newline. -/
def collapseNl : List Char → List Char
  | [] => []
  | [c] => [c]
  | a :: b :: rest =>
    if a == '\n' && b == '\n' then collapseNl (b :: rest)
    else a :: collapseNl (b :: rest)

/-- Python `str.split(sep)` for a one-character separator: the empty
string splits to one empty piece. -/
def pySplitChar (sep : Char) : List Char → List (List Char)
  | [] => [[]]
  | c :: cs =>
    match pySplitChar sep cs with
    | [] => [[]]
    | h :: t => if c == sep then [] :: h :: t else (c :: h) :: t

/-- Python `str.split` on the two-character separator of two newlines
(the paragraph separator of `chunk_text`), leftmost non-overlapping
matches. -/
def pySplitNN : List Char → List (List Char)
  | [] => [[]]
  | [c] => [[c]]
  | a :: b :: rest =>
    if a == '\n' && b == '\n' then [] :: pySplitNN rest
    else
      match pySplitNN (b :: rest) with
      | [] => [[]]
      | h :: t => (a :: h) :: t

/-- Remove trailing characters satisfying `q`. -/
def dropTrail (q : Char → Bool) (l : List Char) : List Char :=
  (l.reverse.dropWhile q).reverse

/-- Python `str.strip()`: remove leading and trailing whitespace. -/
def pyStrip (l : List Char) : List Char :=
  dropTrail isWs (l.dropWhile isWs)

/-- Python `sep.join(pieces)` for a one-character separator. -/
def joinWith (sep : Char) : List (List Char) → List Char
  | [] => []
  | [w] => w
  | w :: ws => w ++ sep :: joinWith sep ws

/-- Python `str.split()` with no argument: the whitespace-delimited
words, with no empty pieces. -/
def pyWords : List Char → List (List Char)
  | [] => []
  | c :: cs =>
    if isWs c then pyWords cs
    else
      match cs with
      | [] => [[c]]
      | d :: _ =>
        if isWs d then [c] :: pyWords cs
        else
          match pyWords cs with
          | [] => [[c]]
          | w :: ws => (c :: w) :: ws

/-- Embedding of `DocumentProcessor.clean_text` (lines 61-80): collapse
whitespace runs, collapse newline runs, delete NUL characters, then keep
only lines whose stripped length exceeds 10 and rejoin them with a
newline. -/
def cleanText (t : List Char) : List Char :=
  joinWith '\n'
    (((pySplitChar '\n'
          ((collapseNl (collapseWs t)).filter (fun c => c != nullChar))).map
        pyStrip).filter (fun l => 10 < l.length))

/-- Embedding of the `DocumentChunk` dataclass; the metadata dict is
flattened into its three constant keys. -/
structure DocumentChunk where
  id : List Char
  text : List Char
  source : List Char
  chunk_id : Nat
  document_type : List Char
deriving DecidableEq

/-- The literal piece of the fragment-id format string. -/
def chunkLit : List Char := "_chunk_".toList

/-- A fragment as `chunk_text` emits it: id `{source}_chunk_{cid}`
(braces denote interpolation), stripped accumulator text, and the
metadata triple. -/
def mkChunk (source : List Char) (cid : Nat) (cur : List Char) : DocumentChunk :=
  ⟨source ++ chunkLit ++ Nat.toDigits 10 cid, pyStrip cur, source, cid, "tupa".toList⟩

/-- Loop state of `chunk_text`: emitted chunks, the accumulator
`current_chunk`, and the counter `chunk_id`. -/
structure ChunkState where
  chunks : List DocumentChunk
  cur : List Char
  cid : Nat

/-- One iteration of the paragraph loop of `chunk_text`
(lines 100-126 of the source). -/
def chunkStep (maxS ov : Nat) (source : List Char) (st : ChunkState) (p : List Char) :
    ChunkState :=
  if maxS < st.cur.length + p.length then
    if st.cur = [] then ⟨st.chunks, p, st.cid⟩
    else
      ⟨st.chunks ++ [mkChunk source st.cid st.cur],
        (if 0 < ov then
          joinWith ' '
            (if ov < (pyWords st.cur).length
              then (pyWords st.cur).drop ((pyWords st.cur).length - ov)
              else pyWords st.cur) ++ ' ' :: p
        else p),
        st.cid + 1⟩
  else ⟨st.chunks, if st.cur = [] then p else st.cur ++ '\n' :: '\n' :: p, st.cid⟩

/-- Embedding of `DocumentProcessor.chunk_text` (lines 82-141): split on
the blank-line separator, fold the paragraph loop, then emit the last
accumulator when its stripped content is non-empty.  The configuration
values `chunk_size` and `chunk_overlap` (read from `rag_config`) are the
parameters `maxS` and `ov`. -/
def chunkText (maxS ov : Nat) (text source : List Char) : List DocumentChunk :=
  if pyStrip ((pySplitNN text).foldl (chunkStep maxS ov source) ⟨[], [], 0⟩).cur = [] then
    ((pySplitNN text).foldl (chunkStep maxS ov source) ⟨[], [], 0⟩).chunks
  else
    ((pySplitNN text).foldl (chunkStep maxS ov source) ⟨[], [], 0⟩).chunks ++
      [mkChunk source ((pySplitNN text).foldl (chunkStep maxS ov source) ⟨[], [], 0⟩).cid
        ((pySplitNN text).foldl (chunkStep maxS ov source) ⟨[], [], 0⟩).cur]

/-- The state after the paragraph loop of `chunk_text`. -/
def chunkFold (maxS ov : Nat) (text source : List Char) : ChunkState :=
  (pySplitNN text).foldl (chunkStep maxS ov source) ⟨[], [], 0⟩

/-- POSIX `os.path.basename`: the part after the last slash. -/
def basename (p : List Char) : List Char :=
  (p.reverse.takeWhile (fun c => c != '/')).reverse

/-- The four characters of the extension ".pdf". -/
def pdfChars : List Char := ['.', 'p', 'd', 'f']

/-- Python `str.replace(".pdf", "")` as used on line 155 of the source:
delete every leftmost non-overlapping occurrence of ".pdf". -/
def removePdf : List Char → List Char
  | '.' :: 'p' :: 'd' :: 'f' :: rest => removePdf rest
  | c :: rest => c :: removePdf rest
  | [] => []

/-- The source name `process_pdf_file` derives from a path
(line 155 of the source). -/
def sourceName (p : List Char) : List Char := removePdf (basename p)

/-- Follows the spec's words (section 4.4): strip the ".pdf" suffix from
the base name when it is present. -/
def stripPdfSuffix (l : List Char) : List Char :=
  if 4 ≤ l.length ∧ l.drop (l.length - 4) = pdfChars then l.take (l.length - 4) else l

/-- An occurrence of ".pdf" that is followed by at least one further
character, i.e. an occurrence that is not the final suffix. -/
def hasInnerPdf : List Char → Bool
  | '.' :: 'p' :: 'd' :: 'f' :: _ :: _ => true
  | _ :: rest => hasInnerPdf rest
  | [] => false

/-- Follows the spec's words (section 9, open question): the normalizer
with the dead second pass removed: whitespace collapse, NUL removal and
the short-line filter only. -/
def cleanTextSinglePass (t : List Char) : List Char :=
  joinWith '\n'
    (((pySplitChar '\n'
          ((collapseWs t).filter (fun c => c != nullChar))).map
        pyStrip).filter (fun l => 10 < l.length))

/-- Follows the spec's words (section 4.2): the last `k` words, or all
of them when fewer than `k` exist. -/
def lastWords (k : Nat) (ws : List (List Char)) : List (List Char) :=
  if ws.length < k then ws else ws.drop (ws.length - k)

/-- No two adjacent characters of the list satisfy the pair
predicate `P`. -/
def noPair (P : Char → Char → Bool) : List Char → Bool
  | a :: b :: rest => !P a b && noPair P (b :: rest)
  | _ => true

/-- Two adjacent whitespace characters. -/
def wsPair (a b : Char) : Bool := isWs a && isWs b

/-- Two adjacent newline characters. -/
def nlPair (a b : Char) : Bool := (a == '\n') && (b == '\n')

/-- Two adjacent space characters. -/
def spPair (a b : Char) : Bool := (a == ' ') && (b == ' ')

/-- The list contains the two-newline paragraph separator. -/
def hasNN (l : List Char) : Bool := !noPair nlPair l

/-- The list contains no NUL character. -/
def nullFree (l : List Char) : Bool := l.all (fun c => c != nullChar)

/-- Every blank-line-separated paragraph of the text is either empty or
contains a non-whitespace character.  Pipeline-normalized text always
satisfies this. -/
def goodParas (t : List Char) : Bool :=
  (pySplitNN t).all (fun p => p.isEmpty || p.any (fun c => !isWs c))

/-! Lemmas about adjacent-pair predicates. -/

theorem noPair_cons_cons (P : Char → Char → Bool) (a b : Char) (l : List Char) :
    noPair P (a :: b :: l) = (!P a b && noPair P (b :: l)) := rfl

theorem noPair_eq_false (P : Char → Char → Bool) :
    ∀ l : List Char, noPair P l = false →
      ∃ u a b v, l = u ++ a :: b :: v ∧ P a b = true := by
  intro l
  induction l with
  | nil => intro h; simp [noPair] at h
  | cons c cs ih =>
    intro h
    cases cs with
    | nil => simp [noPair] at h
    | cons d ds =>
      rw [noPair_cons_cons] at h
      cases hp : P c d with
      | true => exact ⟨[], c, d, ds, rfl, hp⟩
      | false =>
        rw [hp] at h
        simp only [Bool.not_false, Bool.true_and] at h
        obtain ⟨u, a, b, v, huv, hab⟩ := ih h
        exact ⟨c :: u, a, b, v, by rw [huv]; rfl, hab⟩

theorem noPair_eq_false_of (P : Char → Char → Bool) :
    ∀ (u : List Char) (a b : Char) (v : List Char), P a b = true →
      noPair P (u ++ a :: b :: v) = false := by
  intro u a b v hab
  induction u with
  | nil => simp [noPair_cons_cons, hab]
  | cons c u' ih =>
    rw [List.cons_append]
    cases hu : u' ++ a :: b :: v with
    | nil => simp at hu
    | cons x xs =>
      rw [hu] at ih
      rw [noPair_cons_cons, ih]
      simp

theorem noPair_of_append (P : Char → Char → Bool) {s x t : List Char}
    (h : noPair P (s ++ x ++ t) = true) : noPair P x = true := by
  cases hx : noPair P x with
  | true => rfl
  | false =>
    obtain ⟨u, a, b, v, hdec, hab⟩ := noPair_eq_false P x hx
    have hres : s ++ x ++ t = (s ++ u) ++ a :: b :: (v ++ t) := by
      rw [hdec]; simp [List.append_assoc]
    rw [hres, noPair_eq_false_of P _ a b _ hab] at h
    exact Bool.noConfusion h

theorem noPair_mono (P Q : Char → Char → Bool)
    (hPQ : ∀ a b, P a b = true → Q a b = true) :
    ∀ l, noPair Q l = true → noPair P l = true := by
  intro l h
  cases hx : noPair P l with
  | true => rfl
  | false =>
    obtain ⟨u, a, b, v, hdec, hab⟩ := noPair_eq_false P l hx
    rw [hdec, noPair_eq_false_of Q _ a b _ (hPQ a b hab)] at h
    exact Bool.noConfusion h

theorem noPair_cons_of_fst (P : Char → Char → Bool) (c : Char) (l : List Char)
    (hc : ∀ d, P c d = false) : noPair P (c :: l) = noPair P l := by
  cases l with
  | nil => simp [noPair]
  | cons d ds => rw [noPair_cons_cons, hc d]; simp

theorem noPair_append_left (P : Char → Char → Bool) (a l : List Char)
    (ha : ∀ c ∈ a, ∀ d, P c d = false) :
    noPair P (a ++ l) = noPair P l := by
  induction a with
  | nil => rfl
  | cons c cs ih =>
    rw [List.cons_append, noPair_cons_of_fst P c _ (ha c (by simp)),
      ih (fun c hc => ha c (by simp [hc]))]

/-! Lemmas about dropWhile, dropTrail and pyStrip. -/

theorem dropWhile_suffix_decomp (q : Char → Bool) (l : List Char) :
    ∃ s, s ++ l.dropWhile q = l := by
  induction l with
  | nil => exact ⟨[], rfl⟩
  | cons c cs ih =>
    by_cases hc : q c
    · obtain ⟨s, hs⟩ := ih
      exact ⟨c :: s, by rw [List.dropWhile_cons, if_pos hc, List.cons_append, hs]⟩
    · exact ⟨[], by rw [List.dropWhile_cons, if_neg hc]; rfl⟩

theorem pyStrip_pre_decomp (l : List Char) :
    ∃ t, pyStrip l ++ t = l.dropWhile isWs := by
  obtain ⟨s2, hs2⟩ := dropWhile_suffix_decomp isWs (l.dropWhile isWs).reverse
  refine ⟨s2.reverse, ?_⟩
  show dropTrail isWs (l.dropWhile isWs) ++ s2.reverse = l.dropWhile isWs
  unfold dropTrail
  rw [← List.reverse_append, hs2, List.reverse_reverse]

theorem pyStrip_decomp (l : List Char) : ∃ s t, s ++ pyStrip l ++ t = l := by
  obtain ⟨s, hs⟩ := dropWhile_suffix_decomp isWs l
  obtain ⟨t, ht⟩ := pyStrip_pre_decomp l
  exact ⟨s, t, by rw [List.append_assoc, ht, hs]⟩

theorem pyStrip_length_le (l : List Char) : (pyStrip l).length ≤ l.length := by
  obtain ⟨s, t, h⟩ := pyStrip_decomp l
  have := congrArg List.length h
  simp at this
  omega

theorem pyStrip_subset {c : Char} {l : List Char} (h : c ∈ pyStrip l) : c ∈ l := by
  obtain ⟨s, t, hdec⟩ := pyStrip_decomp l
  rw [← hdec]
  simp [h]

theorem noPair_pyStrip (P : Char → Char → Bool) {l : List Char}
    (h : noPair P l = true) : noPair P (pyStrip l) = true := by
  obtain ⟨s, t, hdec⟩ := pyStrip_decomp l
  rw [← hdec] at h
  exact noPair_of_append P h

theorem dropWhile_idem (q : Char → Bool) (l : List Char) :
    (l.dropWhile q).dropWhile q = l.dropWhile q := by
  induction l with
  | nil => rfl
  | cons c cs ih =>
    by_cases hc : q c
    · rw [List.dropWhile_cons, if_pos hc, ih]
    · rw [List.dropWhile_cons, if_neg hc, List.dropWhile_cons, if_neg hc]

theorem dropWhile_length_le (q : Char → Bool) (l : List Char) :
    (l.dropWhile q).length ≤ l.length := by
  obtain ⟨s, hs⟩ := dropWhile_suffix_decomp q l
  have := congrArg List.length hs
  simp at this
  omega

theorem dropWhile_eq_self_of_front (q : Char → Bool) {m p : List Char}
    (hm : m.dropWhile q = m) (hp : ∃ t, p ++ t = m) : p.dropWhile q = p := by
  obtain ⟨t, ht⟩ := hp
  cases p with
  | nil => rfl
  | cons c cs =>
    cases m with
    | nil => simp at ht
    | cons d ds =>
      have hcd : c = d := by
        have := congrArg (fun l => List.head? l) ht
        simpa using this
      have hqd : q d = false := by
        cases hQ : q d with
        | false => rfl
        | true =>
          rw [List.dropWhile_cons, if_pos hQ] at hm
          have hlen := congrArg List.length hm
          have hle := dropWhile_length_le q ds
          simp at hlen
          omega
      rw [List.dropWhile_cons, hcd, hqd]
      simp

theorem dropTrail_idem (q : Char → Bool) (l : List Char) :
    dropTrail q (dropTrail q l) = dropTrail q l := by
  unfold dropTrail
  rw [List.reverse_reverse, dropWhile_idem]

theorem pyStrip_idem (l : List Char) : pyStrip (pyStrip l) = pyStrip l := by
  have hm : (l.dropWhile isWs).dropWhile isWs = l.dropWhile isWs := dropWhile_idem _ _
  have hfront : (pyStrip l).dropWhile isWs = pyStrip l :=
    dropWhile_eq_self_of_front isWs hm (pyStrip_pre_decomp l)
  show dropTrail isWs ((pyStrip l).dropWhile isWs) = pyStrip l
  rw [hfront]
  show dropTrail isWs (dropTrail isWs (l.dropWhile isWs)) = pyStrip l
  rw [dropTrail_idem]
  rfl

theorem dropWhile_eq_nil_of_all (q : Char → Bool) (l : List Char)
    (h : l.all q = true) : l.dropWhile q = [] := by
  induction l with
  | nil => rfl
  | cons c cs ih =>
    simp only [List.all_cons, Bool.and_eq_true] at h
    rw [List.dropWhile_cons, if_pos h.1, ih h.2]

theorem pyStrip_eq_nil_of_all {l : List Char} (h : l.all isWs = true) :
    pyStrip l = [] := by
  show dropTrail isWs (l.dropWhile isWs) = []
  rw [dropWhile_eq_nil_of_all isWs l h]
  rfl

theorem mem_dropWhile_of_not (q : Char → Bool) {c : Char} {l : List Char}
    (hc : q c = false) (h : c ∈ l) : c ∈ l.dropWhile q := by
  induction l with
  | nil => simp at h
  | cons d ds ih =>
    by_cases hd : q d
    · rw [List.dropWhile_cons, if_pos hd]
      rcases List.mem_cons.mp h with h1 | h2
      · rw [h1] at hc; rw [hc] at hd; exact Bool.noConfusion hd
      · exact ih h2
    · rw [List.dropWhile_cons, if_neg hd]; exact h

theorem mem_pyStrip_of_not {c : Char} {l : List Char}
    (hc : isWs c = false) (h : c ∈ l) : c ∈ pyStrip l := by
  have h1 : c ∈ l.dropWhile isWs := mem_dropWhile_of_not _ hc h
  have h2 : c ∈ (l.dropWhile isWs).reverse.dropWhile isWs :=
    mem_dropWhile_of_not _ hc (List.mem_reverse.mpr h1)
  exact List.mem_reverse.mpr h2

theorem pyStrip_ne_nil {l : List Char} (h : l.any (fun c => !isWs c) = true) :
    pyStrip l ≠ [] := by
  obtain ⟨c, hcl, hc⟩ := List.any_eq_true.mp h
  intro hnil
  have hmem := mem_pyStrip_of_not (by simpa using hc) hcl
  rw [hnil] at hmem
  simp at hmem

/-! Lemmas about the whitespace-collapse and newline-collapse passes. -/

theorem collapseWs_ws_space :
    ∀ l : List Char, ∀ c ∈ collapseWs l, isWs c = true → c = ' ' := by
  intro l
  induction l using collapseWs.induct with
  | case1 => intro c hc; simp [collapseWs] at hc
  | case2 c0 h =>
    intro c hc _
    simp [collapseWs, h] at hc
    exact hc
  | case3 c0 h =>
    intro c hc hws
    simp [collapseWs, h] at hc
    rw [hc] at hws
    exact absurd hws h
  | case4 a b rest h ih =>
    intro c hc hws
    simp only [collapseWs, if_pos h] at hc
    exact ih c hc hws
  | case5 a b rest h ih =>
    intro c hc hws
    simp only [collapseWs, if_neg h] at hc
    rcases List.mem_cons.mp hc with h1 | h2
    · by_cases ha : isWs a
      · rw [h1, if_pos ha]
      · rw [h1, if_neg ha] at hws
        exact absurd hws ha
    · exact ih c h2 hws

theorem noNl_collapseWs (l : List Char) : '\n' ∉ collapseWs l := by
  intro hmem
  have := collapseWs_ws_space l '\n' hmem (by decide)
  exact absurd this (by decide)

theorem collapseWs_mem :
    ∀ l : List Char, ∀ c ∈ collapseWs l, c = ' ' ∨ c ∈ l := by
  intro l
  induction l using collapseWs.induct with
  | case1 => intro c hc; simp [collapseWs] at hc
  | case2 c0 h => intro c hc; simp [collapseWs, h] at hc; left; exact hc
  | case3 c0 h =>
    intro c hc
    simp [collapseWs, h] at hc
    right; simp [hc]
  | case4 a b rest h ih =>
    intro c hc
    simp only [collapseWs, if_pos h] at hc
    rcases ih c hc with h1 | h2
    · left; exact h1
    · right; exact List.mem_cons_of_mem _ h2
  | case5 a b rest h ih =>
    intro c hc
    simp only [collapseWs, if_neg h] at hc
    rcases List.mem_cons.mp hc with h1 | h2
    · by_cases ha : isWs a
      · rw [h1, if_pos ha]; left; rfl
      · rw [h1, if_neg ha]; right; exact List.mem_cons_self _ _
    · rcases ih c h2 with h3 | h4
      · left; exact h3
      · right; exact List.mem_cons_of_mem _ h4

theorem collapseWs_cons_shape (b : Char) :
    ∀ rest : List Char, ∃ t, collapseWs (b :: rest) = (if isWs b then ' ' else b) :: t := by
  intro rest
  induction rest generalizing b with
  | nil => exact ⟨[], by by_cases hb : isWs b <;> simp [collapseWs, hb]⟩
  | cons r rs ih =>
    by_cases h : isWs b && isWs r
    · obtain ⟨t, ht⟩ := ih r
      have hb : isWs b = true := by
        have h' := h
        simp only [Bool.and_eq_true] at h'
        exact h'.1
      have hr : isWs r = true := by
        have h' := h
        simp only [Bool.and_eq_true] at h'
        exact h'.2
      refine ⟨t, ?_⟩
      have hcol : collapseWs (b :: r :: rs) = collapseWs (r :: rs) := by
        simp only [collapseWs, if_pos h]
      rw [hcol, ht, if_pos hr, if_pos hb]
    · exact ⟨collapseWs (r :: rs), by simp only [collapseWs, if_neg h]⟩

theorem collapseWs_noPair (l : List Char) : noPair wsPair (collapseWs l) = true := by
  induction l using collapseWs.induct with
  | case1 => rfl
  | case2 c0 h => simp [collapseWs, h, noPair]
  | case3 c0 h => simp [collapseWs, h, noPair]
  | case4 a b rest h ih => simp only [collapseWs, if_pos h]; exact ih
  | case5 a b rest h ih =>
    simp only [collapseWs, if_neg h]
    obtain ⟨t, ht⟩ := collapseWs_cons_shape b rest
    rw [ht]
    rw [ht] at ih
    rw [noPair_cons_cons, ih, Bool.and_true]
    have hx : wsPair (if isWs a then ' ' else a) (if isWs b then ' ' else b) = false := by
      by_cases ha : isWs a
      · have hb : isWs b = false := by
          cases hB : isWs b with
          | false => rfl
          | true => exact absurd (by rw [ha, hB]; rfl : (isWs a && isWs b) = true) h
        rw [if_pos ha, if_neg (by simp [hb])]
        unfold wsPair
        rw [hb]
        simp
      · have ha' : isWs a = false := by
          cases hA : isWs a with
          | false => rfl
          | true => exact absurd hA ha
        rw [if_neg ha]
        unfold wsPair
        rw [ha']
        simp
    rw [hx]
    rfl

theorem collapseWs_eq_self :
    ∀ l : List Char, noPair wsPair l = true → (∀ c ∈ l, isWs c = true → c = ' ') →
      collapseWs l = l := by
  intro l
  induction l using collapseWs.induct with
  | case1 => intro _ _; rfl
  | case2 c0 h =>
    intro _ hsp
    have : c0 = ' ' := hsp c0 (by simp) h
    simp [collapseWs, h, this]
  | case3 c0 h => intro _ _; simp [collapseWs, h]
  | case4 a b rest h ih =>
    intro hnp _
    rw [noPair_cons_cons] at hnp
    have : wsPair a b = true := h
    rw [this] at hnp
    simp at hnp
  | case5 a b rest h ih =>
    intro hnp hsp
    rw [noPair_cons_cons] at hnp
    simp only [Bool.and_eq_true] at hnp
    have htail := ih hnp.2 (fun c hc hw => hsp c (List.mem_cons_of_mem _ hc) hw)
    simp only [collapseWs, if_neg h, htail]
    by_cases ha : isWs a
    · have : a = ' ' := hsp a (by simp) ha
      rw [if_pos ha, this]
    · rw [if_neg ha]

theorem collapseNl_eq_self :
    ∀ l : List Char, '\n' ∉ l → collapseNl l = l := by
  intro l
  induction l using collapseNl.induct with
  | case1 => intro _; rfl
  | case2 c => intro _; rfl
  | case3 a b rest h ih =>
    intro hmem
    have ha : a = '\n' := by
      simp only [Bool.and_eq_true, beq_iff_eq] at h
      exact h.1
    exact absurd (by rw [ha]; exact List.mem_cons_self _ _ : '\n' ∈ a :: b :: rest) hmem
  | case4 a b rest h ih =>
    intro hmem
    have : collapseNl (a :: b :: rest) = a :: collapseNl (b :: rest) := by
      simp only [collapseNl, if_neg h]
    rw [this, ih (fun hm => hmem (List.mem_cons_of_mem _ hm))]

theorem noNl_collapseNl_of_noNl {l : List Char} (h : '\n' ∉ l) :
    '\n' ∉ collapseNl l := by
  rw [collapseNl_eq_self l h]
  exact h

/-! Lemmas about the Python split functions. -/

theorem pySplitChar_of_not_mem {sep : Char} :
    ∀ {l : List Char}, sep ∉ l → pySplitChar sep l = [l] := by
  intro l
  induction l with
  | nil => intro _; rfl
  | cons c cs ih =>
    intro h
    have hcs : sep ∉ cs := fun hm => h (List.mem_cons_of_mem _ hm)
    have hc : (c == sep) = false := by
      rw [beq_eq_false_iff_ne]
      intro he
      exact h (by rw [he]; exact List.mem_cons_self _ _)
    simp [pySplitChar, ih hcs, hc]

theorem pySplitNN_ne_nil : ∀ l : List Char, pySplitNN l ≠ [] := by
  intro l
  induction l using pySplitNN.induct with
  | case1 => simp [pySplitNN]
  | case2 c => simp [pySplitNN]
  | case3 a b rest h ih => simp [pySplitNN, h]
  | case4 a b rest h hnil ih => exact absurd hnil ih
  | case5 a b rest h hd tl heq ih => simp [pySplitNN, h, heq]

theorem pySplitNN_head_shape :
    ∀ (b : Char) (rest : List Char),
      ∃ h tl, pySplitNN (b :: rest) = h :: tl ∧ (h = [] ∨ ∃ h2, h = b :: h2) := by
  intro b rest
  cases rest with
  | nil => exact ⟨[b], [], rfl, Or.inr ⟨[], rfl⟩⟩
  | cons c r2 =>
    by_cases hnn : (b == '\n' && c == '\n') = true
    · refine ⟨[], pySplitNN r2, ?_, Or.inl rfl⟩
      simp only [pySplitNN, if_pos hnn]
    · cases heq : pySplitNN (c :: r2) with
      | nil => exact absurd heq (pySplitNN_ne_nil _)
      | cons hd tl =>
        refine ⟨b :: hd, tl, ?_, Or.inr ⟨hd, rfl⟩⟩
        simp only [pySplitNN, if_neg hnn, heq]

theorem pySplitNN_pieces_noNN :
    ∀ l : List Char, ∀ p ∈ pySplitNN l, noPair nlPair p = true := by
  intro l
  induction l using pySplitNN.induct with
  | case1 => intro p hp; simp [pySplitNN] at hp; rw [hp]; rfl
  | case2 c => intro p hp; simp [pySplitNN] at hp; rw [hp]; rfl
  | case3 a b rest h ih =>
    intro p hp
    simp only [pySplitNN, if_pos h] at hp
    rcases List.mem_cons.mp hp with h1 | h2
    · rw [h1]; rfl
    · exact ih p h2
  | case4 a b rest h hnil ih => exact absurd hnil (pySplitNN_ne_nil _)
  | case5 a b rest h hd tl heq ih =>
    intro p hp
    simp only [pySplitNN, if_neg h, heq] at hp
    rcases List.mem_cons.mp hp with h1 | h2
    · obtain ⟨hd', tl', heq', hshape⟩ := pySplitNN_head_shape b rest
      rw [heq] at heq'
      have hhd : hd = hd' := by
        have := congrArg (fun l => List.head? l) heq'
        simpa using this
      have htl : tl = tl' := by
        have := congrArg (fun l => List.tail l) heq'
        simpa using this
      have hnp_hd : noPair nlPair hd = true := ih hd (by rw [heq]; exact List.mem_cons_self _ _)
      rcases hshape with hnil' | ⟨h2, hb⟩
      · rw [h1, hhd, hnil']
        rfl
      · rw [h1]
        cases hhd2 : hd with
        | nil => rfl
        | cons x xs =>
          have hx : x = b := by
            have h' := hhd2
            rw [hhd, hb] at h'
            have := congrArg (fun l => List.head? l) h'
            simpa using this.symm
          rw [noPair_cons_cons]
          have : nlPair a x = false := by
            unfold nlPair
            rw [hx]
            cases hA : (a == '\n') with
            | false => rfl
            | true =>
              cases hB : (b == '\n') with
              | false => simp
              | true => exact absurd (by rw [hA, hB]; rfl : (a == '\n' && b == '\n') = true) h
          rw [this]
          rw [hhd2] at hnp_hd
          rw [hnp_hd]
          rfl
    · exact ih p (by rw [heq]; exact List.mem_cons_of_mem _ h2)

theorem pySplitNN_mem_subset :
    ∀ l : List Char, ∀ p ∈ pySplitNN l, ∀ c ∈ p, c ∈ l := by
  intro l
  induction l using pySplitNN.induct with
  | case1 => intro p hp c hc; simp [pySplitNN] at hp; rw [hp] at hc; simp at hc
  | case2 c0 => intro p hp c hc; simp [pySplitNN] at hp; rw [hp] at hc; simpa using hc
  | case3 a b rest h ih =>
    intro p hp c hc
    simp only [pySplitNN, if_pos h] at hp
    rcases List.mem_cons.mp hp with h1 | h2
    · rw [h1] at hc; simp at hc
    · exact List.mem_cons_of_mem _ (List.mem_cons_of_mem _ (ih p h2 c hc))
  | case4 a b rest h hnil ih => exact absurd hnil (pySplitNN_ne_nil _)
  | case5 a b rest h hd tl heq ih =>
    intro p hp c hc
    simp only [pySplitNN, if_neg h, heq] at hp
    rcases List.mem_cons.mp hp with h1 | h2
    · rw [h1] at hc
      rcases List.mem_cons.mp hc with h3 | h4
      · rw [h3]; exact List.mem_cons_self _ _
      · have : c ∈ b :: rest := ih hd (by rw [heq]; exact List.mem_cons_self _ _) c h4
        exact List.mem_cons_of_mem _ this
    · have : c ∈ b :: rest := ih p (by rw [heq]; exact List.mem_cons_of_mem _ h2) c hc
      exact List.mem_cons_of_mem _ this

theorem pySplitNN_of_noNl :
    ∀ l : List Char, '\n' ∉ l → pySplitNN l = [l] := by
  intro l
  induction l using pySplitNN.induct with
  | case1 => intro _; rfl
  | case2 c => intro _; rfl
  | case3 a b rest h ih =>
    intro hmem
    have ha : a = '\n' := by
      simp only [Bool.and_eq_true, beq_iff_eq] at h
      exact h.1
    exact absurd (by rw [ha]; exact List.mem_cons_self _ _ : '\n' ∈ a :: b :: rest) hmem
  | case4 a b rest h hnil ih => exact absurd hnil (pySplitNN_ne_nil _)
  | case5 a b rest h hd tl heq ih =>
    intro hmem
    have hsub : '\n' ∉ b :: rest := fun hm => hmem (List.mem_cons_of_mem _ hm)
    have := ih hsub
    rw [heq] at this
    have hhd : hd = b :: rest := by
      have := congrArg (fun l => List.head? l) this
      simpa using this
    have htl : tl = [] := by
      have := congrArg (fun l => List.tail l) this
      simpa using this
    simp only [pySplitNN, if_neg h, heq, hhd, htl]

/-! Lemmas about joinWith and pyWords. -/

theorem joinWith_single (sep : Char) (w : List Char) : joinWith sep [w] = w := rfl

theorem joinWith_cons_cons (sep : Char) (w w2 : List Char) (ws : List (List Char)) :
    joinWith sep (w :: w2 :: ws) = w ++ sep :: joinWith sep (w2 :: ws) := rfl

theorem mem_joinWith (sep : Char) :
    ∀ ws : List (List Char), ∀ c ∈ joinWith sep ws, c = sep ∨ ∃ w ∈ ws, c ∈ w := by
  intro ws
  induction ws with
  | nil => intro c hc; simp [joinWith] at hc
  | cons w ws ih =>
    intro c hc
    cases ws with
    | nil => right; exact ⟨w, by simp, by simpa [joinWith] using hc⟩
    | cons w2 ws2 =>
      rw [joinWith_cons_cons] at hc
      rcases List.mem_append.mp hc with h1 | h2
      · right; exact ⟨w, by simp, h1⟩
      · rcases List.mem_cons.mp h2 with h3 | h4
        · left; exact h3
        · rcases ih c h4 with h5 | ⟨w3, hw3, hcw3⟩
          · left; exact h5
          · right; exact ⟨w3, List.mem_cons_of_mem _ hw3, hcw3⟩

theorem pyWords_cons_ws {c : Char} (cs : List Char) (h : isWs c = true) :
    pyWords (c :: cs) = pyWords cs := by
  rw [pyWords.eq_def]
  simp [h]

theorem pyWords_single {c : Char} (h : isWs c = false) :
    pyWords [c] = [[c]] := by
  rw [pyWords.eq_def]
  simp [h]

theorem pyWords_cons_cons_ws {c d : Char} (cs : List Char)
    (hc : isWs c = false) (hd : isWs d = true) :
    pyWords (c :: d :: cs) = [c] :: pyWords (d :: cs) := by
  rw [pyWords.eq_def]
  simp [hc, hd]

theorem pyWords_cons_cons_nonws {c d : Char} (cs : List Char)
    (hc : isWs c = false) (hd : isWs d = false) :
    pyWords (c :: d :: cs) =
      (match pyWords (d :: cs) with
        | [] => [[c]]
        | w :: ws => (c :: w) :: ws) := by
  rw [pyWords.eq_def]
  simp [hc, hd]

theorem pyWords_words :
    ∀ l : List Char, ∀ w ∈ pyWords l, w ≠ [] ∧ ∀ c ∈ w, isWs c = false := by
  intro l
  induction l using pyWords.induct with
  | case1 => intro w hw; simp [pyWords] at hw
  | case2 c cs h ih =>
    intro w hw
    rw [pyWords_cons_ws cs h] at hw
    exact ih w hw
  | case3 c h =>
    intro w hw
    have hc : isWs c = false := by
      cases hC : isWs c with
      | false => rfl
      | true => exact absurd hC h
    rw [pyWords_single hc] at hw
    rcases List.mem_singleton.mp hw with h1
    refine ⟨by simp [h1], ?_⟩
    intro x hx
    rw [h1] at hx
    rw [List.mem_singleton.mp hx]
    exact hc
  | case4 c h d cs hd ih =>
    intro w hw
    have hc : isWs c = false := by
      cases hC : isWs c with
      | false => rfl
      | true => exact absurd hC h
    rw [pyWords_cons_cons_ws cs hc hd] at hw
    rcases List.mem_cons.mp hw with h1 | h2
    · refine ⟨by simp [h1], ?_⟩
      intro x hx
      rw [h1] at hx
      rw [List.mem_singleton.mp hx]
      exact hc
    · exact ih w h2
  | case5 c h d cs hd hnil ih =>
    intro w hw
    have hc : isWs c = false := by
      cases hC : isWs c with
      | false => rfl
      | true => exact absurd hC h
    have hdc : isWs d = false := by
      cases hD : isWs d with
      | false => rfl
      | true => exact absurd hD hd
    rw [pyWords_cons_cons_nonws cs hc hdc, hnil] at hw
    rcases List.mem_singleton.mp hw with h1
    refine ⟨by simp [h1], ?_⟩
    intro x hx
    rw [h1] at hx
    rw [List.mem_singleton.mp hx]
    exact hc
  | case6 c h d cs hd w0 ws0 heq ih =>
    intro w hw
    have hc : isWs c = false := by
      cases hC : isWs c with
      | false => rfl
      | true => exact absurd hC h
    have hdc : isWs d = false := by
      cases hD : isWs d with
      | false => rfl
      | true => exact absurd hD hd
    rw [pyWords_cons_cons_nonws cs hc hdc, heq] at hw
    have hw0 := ih w0 (by rw [heq]; exact List.mem_cons_self _ _)
    rcases List.mem_cons.mp hw with h1 | h2
    · constructor
      · simp [h1]
      · intro x hx
        rw [h1] at hx
        rcases List.mem_cons.mp hx with h3 | h4
        · rw [h3]; exact hc
        · exact hw0.2 x h4
    · exact ih w (by rw [heq]; exact List.mem_cons_of_mem _ h2)

theorem pyWords_eq_nil_imp :
    ∀ l : List Char, pyWords l = [] → l.all isWs = true := by
  intro l
  induction l using pyWords.induct with
  | case1 => intro _; rfl
  | case2 c cs h ih =>
    intro hw
    rw [pyWords_cons_ws cs h] at hw
    simp [h, ih hw]
  | case3 c h =>
    intro hw
    have hc : isWs c = false := by
      cases hC : isWs c with
      | false => rfl
      | true => exact absurd hC h
    rw [pyWords_single hc] at hw
    exact absurd hw (by simp)
  | case4 c h d cs hd ih =>
    intro hw
    have hc : isWs c = false := by
      cases hC : isWs c with
      | false => rfl
      | true => exact absurd hC h
    rw [pyWords_cons_cons_ws cs hc hd] at hw
    exact absurd hw (by simp)
  | case5 c h d cs hd hnil ih =>
    intro hw
    have hc : isWs c = false := by
      cases hC : isWs c with
      | false => rfl
      | true => exact absurd hC h
    have hdc : isWs d = false := by
      cases hD : isWs d with
      | false => rfl
      | true => exact absurd hD hd
    rw [pyWords_cons_cons_nonws cs hc hdc, hnil] at hw
    exact absurd hw (by simp)
  | case6 c h d cs hd w0 ws0 heq ih =>
    intro hw
    have hc : isWs c = false := by
      cases hC : isWs c with
      | false => rfl
      | true => exact absurd hC h
    have hdc : isWs d = false := by
      cases hD : isWs d with
      | false => rfl
      | true => exact absurd hD hd
    rw [pyWords_cons_cons_nonws cs hc hdc, heq] at hw
    exact absurd hw (by simp)

theorem pyWords_ne_nil {l : List Char}
    (h : l.any (fun c => !isWs c) = true) : pyWords l ≠ [] := by
  intro hnil
  obtain ⟨c, hcl, hc⟩ := List.any_eq_true.mp h
  have hall := List.all_eq_true.mp (pyWords_eq_nil_imp l hnil) c hcl
  rw [hall] at hc
  simp at hc

theorem pyWords_nil_of_all {l : List Char} (h : l.all isWs = true) :
    pyWords l = [] := by
  induction l with
  | nil => rfl
  | cons c cs ih =>
    simp only [List.all_cons, Bool.and_eq_true] at h
    simp only [pyWords, if_pos h.1]
    exact ih h.2

/-! Generic fold invariant and chunkStep case lemmas. -/

theorem foldl_inv {α β : Type} (f : β → α → β) (P : β → Prop) (Q : α → Prop) :
    ∀ (l : List α) (b : β), (∀ a ∈ l, Q a) → P b →
      (∀ b a, Q a → P b → P (f b a)) → P (l.foldl f b) := by
  intro l
  induction l with
  | nil => intro b _ hP _; exact hP
  | cons a as ih =>
    intro b hQ hP hstep
    exact ih (f b a) (fun x hx => hQ x (List.mem_cons_of_mem _ hx))
      (hstep b a (hQ a (List.mem_cons_self _ _)) hP) hstep

theorem chunkStep_seed (maxS ov : Nat) (src : List Char) (st : ChunkState) (p : List Char)
    (hguard : maxS < st.cur.length + p.length) (hcur : st.cur = []) :
    chunkStep maxS ov src st p = ⟨st.chunks, p, st.cid⟩ := by
  unfold chunkStep
  rw [if_pos hguard, if_pos hcur]

theorem chunkStep_emit (maxS ov : Nat) (src : List Char) (st : ChunkState) (p : List Char)
    (hguard : maxS < st.cur.length + p.length) (hcur : st.cur ≠ []) :
    chunkStep maxS ov src st p =
      ⟨st.chunks ++ [mkChunk src st.cid st.cur],
        (if 0 < ov then
          joinWith ' '
            (if ov < (pyWords st.cur).length
              then (pyWords st.cur).drop ((pyWords st.cur).length - ov)
              else pyWords st.cur) ++ ' ' :: p
        else p),
        st.cid + 1⟩ := by
  unfold chunkStep
  rw [if_pos hguard, if_neg hcur]

theorem chunkStep_append (maxS ov : Nat) (src : List Char) (st : ChunkState) (p : List Char)
    (hguard : ¬ maxS < st.cur.length + p.length) :
    chunkStep maxS ov src st p =
      ⟨st.chunks, if st.cur = [] then p else st.cur ++ '\n' :: '\n' :: p, st.cid⟩ := by
  unfold chunkStep
  rw [if_neg hguard]

/-- The overlap words taken in the emit branch are a subset of the words
of the accumulator. -/
theorem overlap_words_subset (ov : Nat) (cur : List Char) :
    ∀ w ∈ (if ov < (pyWords cur).length
        then (pyWords cur).drop ((pyWords cur).length - ov)
        else pyWords cur), w ∈ pyWords cur := by
  intro w hw
  by_cases h : ov < (pyWords cur).length
  · rw [if_pos h] at hw
    exact List.mem_of_mem_drop hw
  · rw [if_neg h] at hw
    exact hw

/-- Characters of the overlap seed before the paragraph are never
newlines. -/
theorem overlap_join_no_nl (ov : Nat) (cur : List Char) :
    ∀ c ∈ joinWith ' '
        (if ov < (pyWords cur).length
          then (pyWords cur).drop ((pyWords cur).length - ov)
          else pyWords cur) ++ [' '], c ≠ '\n' := by
  intro c hc
  rcases List.mem_append.mp hc with h1 | h2
  · rcases mem_joinWith ' ' _ c h1 with h3 | ⟨w, hw, hcw⟩
    · rw [h3]; decide
    · have := (pyWords_words cur w (overlap_words_subset ov cur w hw)).2 c hcw
      intro he
      rw [he] at this
      exact absurd this (by decide)
  · rcases List.mem_singleton.mp h2 with h3
    rw [h3]; decide

/-! Structure of the normalizer output. -/

/-- The newline-collapse pass is dead: the whitespace collapse has
already removed every newline, so the two-pass normalizer equals the
single-pass variant. -/
theorem cleanText_eq_singlePass (t : List Char) :
    cleanText t = cleanTextSinglePass t := by
  unfold cleanText cleanTextSinglePass
  rw [collapseNl_eq_self _ (noNl_collapseWs t)]

/-- The normalizer output is either empty, or the stripped NUL-filtered
whitespace-collapsed input, of length above 10. -/
theorem cleanText_cases (x : List Char) :
    cleanText x = [] ∨
      (cleanText x = pyStrip ((collapseWs x).filter (fun c => c != nullChar)) ∧
        10 < (cleanText x).length) := by
  rw [cleanText_eq_singlePass]
  unfold cleanTextSinglePass
  have hnl : '\n' ∉ (collapseWs x).filter (fun c => c != nullChar) := by
    intro hm
    exact noNl_collapseWs x (List.mem_of_mem_filter hm)
  rw [pySplitChar_of_not_mem hnl]
  by_cases hlen : 10 < (pyStrip ((collapseWs x).filter (fun c => c != nullChar))).length
  · right
    constructor
    · simp [hlen, joinWith]
    · simp [hlen, joinWith]
  · left
    simp [hlen, joinWith]

theorem cleanText_noNl (x : List Char) : '\n' ∉ cleanText x := by
  rcases cleanText_cases x with h | ⟨h, _⟩
  · rw [h]; simp
  · rw [h]
    intro hm
    exact noNl_collapseWs x (List.mem_of_mem_filter (pyStrip_subset hm))

theorem cleanText_nil : cleanText [] = [] := by decide

/-! The chunk loop: results expressed through chunkFold. -/

theorem chunkText_def (maxS ov : Nat) (text src : List Char) :
    chunkText maxS ov text src =
      if pyStrip (chunkFold maxS ov text src).cur = [] then
        (chunkFold maxS ov text src).chunks
      else
        (chunkFold maxS ov text src).chunks ++
          [mkChunk src (chunkFold maxS ov text src).cid (chunkFold maxS ov text src).cur] := rfl

theorem mem_chunkText {maxS ov : Nat} {text src : List Char} {ch : DocumentChunk}
    (h : ch ∈ chunkText maxS ov text src) :
    ch ∈ (chunkFold maxS ov text src).chunks ∨
      (ch = mkChunk src (chunkFold maxS ov text src).cid (chunkFold maxS ov text src).cur ∧
        pyStrip (chunkFold maxS ov text src).cur ≠ []) := by
  rw [chunkText_def] at h
  by_cases hc : pyStrip (chunkFold maxS ov text src).cur = []
  · rw [if_pos hc] at h
    left; exact h
  · rw [if_neg hc] at h
    rcases List.mem_append.mp h with h1 | h2
    · left; exact h1
    · right; exact ⟨List.mem_singleton.mp h2, hc⟩

theorem chunkFold_ids (maxS ov : Nat) (text src : List Char) :
    (chunkFold maxS ov text src).cid = (chunkFold maxS ov text src).chunks.length ∧
    (chunkFold maxS ov text src).chunks.map (fun ch => ch.chunk_id) =
      List.range (chunkFold maxS ov text src).chunks.length ∧
    (chunkFold maxS ov text src).chunks.map (fun ch => ch.id) =
      (List.range (chunkFold maxS ov text src).chunks.length).map
        (fun i => src ++ chunkLit ++ Nat.toDigits 10 i) := by
  apply foldl_inv (chunkStep maxS ov src)
    (fun st => st.cid = st.chunks.length ∧
      st.chunks.map (fun ch => ch.chunk_id) = List.range st.chunks.length ∧
      st.chunks.map (fun ch => ch.id) =
        (List.range st.chunks.length).map (fun i => src ++ chunkLit ++ Nat.toDigits 10 i))
    (fun _ => True) (pySplitNN text) ⟨[], [], 0⟩ (fun _ _ => trivial)
    ⟨rfl, rfl, rfl⟩
  intro st p _ hP
  by_cases hg : maxS < st.cur.length + p.length
  · by_cases hc : st.cur = []
    · rw [chunkStep_seed _ _ _ _ _ hg hc]
      exact hP
    · rw [chunkStep_emit _ _ _ _ _ hg hc]
      obtain ⟨h1, h2, h3⟩ := hP
      refine ⟨by simp [h1], ?_, ?_⟩
      · rw [List.map_append, h2, h1]
        simp [List.range_succ, mkChunk]
      · rw [List.map_append, h3, h1]
        simp [List.range_succ, mkChunk]
  · rw [chunkStep_append _ _ _ _ _ hg]
    exact hP

theorem nlPair_eq_false_of_ne {c : Char} (h : c ≠ '\n') (d : Char) :
    nlPair c d = false := by
  unfold nlPair
  rw [beq_eq_false_iff_ne.mpr h]
  rfl

theorem mem_joinWith_of_mem (sep : Char) :
    ∀ (ws : List (List Char)) (w : List Char), w ∈ ws → ∀ c ∈ w, c ∈ joinWith sep ws := by
  intro ws
  induction ws with
  | nil => intro w hw; simp at hw
  | cons w0 ws0 ih =>
    intro w hw c hc
    cases ws0 with
    | nil =>
      rcases List.mem_singleton.mp hw with h1
      rw [joinWith_single]
      rw [h1] at hc
      exact hc
    | cons w1 ws1 =>
      rw [joinWith_cons_cons]
      rcases List.mem_cons.mp hw with h1 | h2
      · rw [h1] at hc
        exact List.mem_append.mpr (Or.inl hc)
      · exact List.mem_append.mpr (Or.inr (List.mem_cons_of_mem _ (ih w h2 c hc)))

/-- A fragment emitted from an accumulator whose separator-containing
form is length-bounded keeps the bound after stripping. -/
theorem emitted_size_bound {cur : List Char} {maxS : Nat}
    (hinv : hasNN cur = true → cur.length ≤ maxS + 2)
    (hN : hasNN (pyStrip cur) = true) : (pyStrip cur).length ≤ maxS + 2 := by
  have hnp : noPair nlPair cur = false := by
    cases hN2 : noPair nlPair cur with
    | false => rfl
    | true =>
      have := noPair_pyStrip nlPair hN2
      simp only [hasNN, this] at hN
      simp at hN
  have hlen := hinv (by simp only [hasNN, hnp]; rfl)
  calc (pyStrip cur).length ≤ cur.length := pyStrip_length_le _
    _ ≤ maxS + 2 := hlen

theorem chunkFold_sizeBound (maxS ov : Nat) (text src : List Char) :
    (∀ ch ∈ (chunkFold maxS ov text src).chunks,
        hasNN ch.text = true → ch.text.length ≤ maxS + 2) ∧
    (hasNN (chunkFold maxS ov text src).cur = true →
      (chunkFold maxS ov text src).cur.length ≤ maxS + 2) := by
  apply foldl_inv (chunkStep maxS ov src)
    (fun st => (∀ ch ∈ st.chunks, hasNN ch.text = true → ch.text.length ≤ maxS + 2) ∧
      (hasNN st.cur = true → st.cur.length ≤ maxS + 2))
    (fun p => noPair nlPair p = true)
    (pySplitNN text) ⟨[], [], 0⟩ (pySplitNN_pieces_noNN text)
    ⟨by simp, by intro h; exact absurd h (by decide)⟩
  intro st p hQ hP
  obtain ⟨hchunks, hcur⟩ := hP
  by_cases hg : maxS < st.cur.length + p.length
  · by_cases hc : st.cur = []
    · rw [chunkStep_seed _ _ _ _ _ hg hc]
      refine ⟨hchunks, ?_⟩
      intro h
      simp only [hasNN, hQ] at h
      simp at h
    · rw [chunkStep_emit _ _ _ _ _ hg hc]
      constructor
      · intro ch hch
        rcases List.mem_append.mp hch with h1 | h2
        · exact hchunks ch h1
        · rw [List.mem_singleton.mp h2]
          exact fun hN => emitted_size_bound hcur hN
      · by_cases hov : 0 < ov
        · rw [if_pos hov]
          intro hN
          have hnn : noPair nlPair
              (joinWith ' '
                (if ov < (pyWords st.cur).length
                  then (pyWords st.cur).drop ((pyWords st.cur).length - ov)
                  else pyWords st.cur) ++ ' ' :: p) = true := by
            have hre : joinWith ' '
                (if ov < (pyWords st.cur).length
                  then (pyWords st.cur).drop ((pyWords st.cur).length - ov)
                  else pyWords st.cur) ++ ' ' :: p =
                (joinWith ' '
                  (if ov < (pyWords st.cur).length
                    then (pyWords st.cur).drop ((pyWords st.cur).length - ov)
                    else pyWords st.cur) ++ [' ']) ++ p := by
              simp
            rw [hre, noPair_append_left nlPair _ p
              (fun c hc' d => nlPair_eq_false_of_ne (overlap_join_no_nl ov st.cur c hc') d)]
            exact hQ
          simp only [hasNN, hnn] at hN
          simp at hN
        · rw [if_neg hov]
          intro hN
          simp only [hasNN, hQ] at hN
          simp at hN
  · rw [chunkStep_append _ _ _ _ _ hg]
    refine ⟨hchunks, ?_⟩
    by_cases hc : st.cur = []
    · rw [if_pos hc]
      intro h
      simp only [hasNN, hQ] at h
      simp at h
    · rw [if_neg hc]
      intro _
      simp only [List.length_append, List.length_cons]
      omega

theorem chunkFold_nonEmpty (maxS ov : Nat) (text src : List Char)
    (hgood : goodParas text = true) :
    (∀ ch ∈ (chunkFold maxS ov text src).chunks, ch.text ≠ []) ∧
    ((chunkFold maxS ov text src).cur = [] ∨
      (chunkFold maxS ov text src).cur.any (fun c => !isWs c) = true) := by
  apply foldl_inv (chunkStep maxS ov src)
    (fun st => (∀ ch ∈ st.chunks, ch.text ≠ []) ∧
      (st.cur = [] ∨ st.cur.any (fun c => !isWs c) = true))
    (fun p => p = [] ∨ p.any (fun c => !isWs c) = true)
    (pySplitNN text) ⟨[], [], 0⟩
  · intro p hp
    unfold goodParas at hgood
    have hor := List.all_eq_true.mp hgood p hp
    simp only [Bool.or_eq_true] at hor
    rcases hor with h1 | h2
    · left; exact List.isEmpty_iff.mp h1
    · right; exact h2
  · exact ⟨by simp, Or.inl rfl⟩
  intro st p hQ hP
  obtain ⟨hchunks, hcur⟩ := hP
  by_cases hg : maxS < st.cur.length + p.length
  · by_cases hc : st.cur = []
    · rw [chunkStep_seed _ _ _ _ _ hg hc]
      exact ⟨hchunks, hQ⟩
    · have hany : st.cur.any (fun c => !isWs c) = true := by
        rcases hcur with h1 | h2
        · exact absurd h1 hc
        · exact h2
      rw [chunkStep_emit _ _ _ _ _ hg hc]
      constructor
      · intro ch hch
        rcases List.mem_append.mp hch with h1 | h2
        · exact hchunks ch h1
        · rw [List.mem_singleton.mp h2]
          simp only [mkChunk]
          exact pyStrip_ne_nil hany
      · by_cases hov : 0 < ov
        · rw [if_pos hov]
          right
          have hwne : pyWords st.cur ≠ [] := pyWords_ne_nil hany
          have howne :
              (if ov < (pyWords st.cur).length
                then (pyWords st.cur).drop ((pyWords st.cur).length - ov)
                else pyWords st.cur) ≠ [] := by
            by_cases h1 : ov < (pyWords st.cur).length
            · rw [if_pos h1]
              intro hnil
              have := congrArg List.length hnil
              rw [List.length_drop] at this
              simp at this
              omega
            · rw [if_neg h1]
              exact hwne
          cases how :
              (if ov < (pyWords st.cur).length
                then (pyWords st.cur).drop ((pyWords st.cur).length - ov)
                else pyWords st.cur) with
          | nil => exact absurd how howne
          | cons w0 ows =>
            have hw0 : w0 ∈ pyWords st.cur := by
              apply overlap_words_subset ov st.cur
              rw [how]
              exact List.mem_cons_self _ _
            obtain ⟨hw0ne, hw0ws⟩ := pyWords_words st.cur w0 hw0
            cases w0 with
            | nil => exact absurd rfl hw0ne
            | cons x xs =>
              have hx : isWs x = false := hw0ws x (List.mem_cons_self _ _)
              have hxj : x ∈ joinWith ' ' ((x :: xs) :: ows) :=
                mem_joinWith_of_mem ' ' ((x :: xs) :: ows) (x :: xs)
                  (List.mem_cons_self _ _) x (List.mem_cons_self _ _)
              apply List.any_eq_true.mpr
              exact ⟨x, List.mem_append.mpr (Or.inl hxj), by simp [hx]⟩
        · rw [if_neg hov]
          exact hQ
  · rw [chunkStep_append _ _ _ _ _ hg]
    refine ⟨hchunks, ?_⟩
    by_cases hc : st.cur = []
    · rw [if_pos hc]
      exact hQ
    · rw [if_neg hc]
      right
      have hany : st.cur.any (fun c => !isWs c) = true := by
        rcases hcur with h1 | h2
        · exact absurd h1 hc
        · exact h2
      obtain ⟨c, hcm, hcb⟩ := List.any_eq_true.mp hany
      exact List.any_eq_true.mpr ⟨c, List.mem_append.mpr (Or.inl hcm), hcb⟩

theorem chunkFold_blank (maxS ov : Nat) (text src : List Char)
    (hblank : text.all isWs = true) :
    (∀ ch ∈ (chunkFold maxS ov text src).chunks, ch.text = []) ∧
    (chunkFold maxS ov text src).cur.all isWs = true := by
  apply foldl_inv (chunkStep maxS ov src)
    (fun st => (∀ ch ∈ st.chunks, ch.text = []) ∧ st.cur.all isWs = true)
    (fun p => p.all isWs = true)
    (pySplitNN text) ⟨[], [], 0⟩
  · intro p hp
    apply List.all_eq_true.mpr
    intro c hc
    exact List.all_eq_true.mp hblank c (pySplitNN_mem_subset text p hp c hc)
  · exact ⟨by simp, rfl⟩
  intro st p hQ hP
  obtain ⟨hchunks, hcur⟩ := hP
  by_cases hg : maxS < st.cur.length + p.length
  · by_cases hc : st.cur = []
    · rw [chunkStep_seed _ _ _ _ _ hg hc]
      exact ⟨hchunks, hQ⟩
    · rw [chunkStep_emit _ _ _ _ _ hg hc]
      constructor
      · intro ch hch
        rcases List.mem_append.mp hch with h1 | h2
        · exact hchunks ch h1
        · rw [List.mem_singleton.mp h2]
          simp only [mkChunk]
          exact pyStrip_eq_nil_of_all hcur
      · by_cases hov : 0 < ov
        · rw [if_pos hov]
          rw [pyWords_nil_of_all hcur]
          rw [if_neg (by simp)]
          show (joinWith ' ' [] ++ ' ' :: p).all isWs = true
          simp only [joinWith, List.nil_append, List.all_cons, Bool.and_eq_true]
          exact ⟨by decide, hQ⟩
        · rw [if_neg hov]
          exact hQ
  · rw [chunkStep_append _ _ _ _ _ hg]
    refine ⟨hchunks, ?_⟩
    by_cases hc : st.cur = []
    · rw [if_pos hc]
      exact hQ
    · rw [if_neg hc]
      simp only [List.all_append, List.all_cons, Bool.and_eq_true]
      exact ⟨hcur, by decide, by decide, hQ⟩

/-! Facts about the normalizer output on NUL-free input. -/

theorem cleanText_nullFree_facts (x : List Char) (hx : nullFree x = true) :
    cleanText x = [] ∨
      (noPair wsPair (cleanText x) = true ∧
        (∀ c ∈ cleanText x, isWs c = true → c = ' ') ∧
        (∀ c ∈ cleanText x, (c != nullChar) = true) ∧
        '\n' ∉ cleanText x ∧
        pyStrip (cleanText x) = cleanText x ∧
        10 < (cleanText x).length) := by
  unfold nullFree at hx
  rcases cleanText_cases x with h | ⟨h, hlen⟩
  · left; exact h
  · right
    have hnull : ∀ c ∈ collapseWs x, (c != nullChar) = true := by
      intro c hc
      rcases collapseWs_mem x c hc with h1 | h2
      · rw [h1]; decide
      · exact List.all_eq_true.mp hx c h2
    have ht3 : (collapseWs x).filter (fun c => c != nullChar) = collapseWs x :=
      List.filter_eq_self.mpr hnull
    rw [ht3] at h
    have hysub : ∀ c ∈ cleanText x, c ∈ collapseWs x := by
      intro c hc
      rw [h] at hc
      exact pyStrip_subset hc
    refine ⟨?_, ?_, ?_, ?_, ?_, hlen⟩
    · rw [h]
      exact noPair_pyStrip wsPair (collapseWs_noPair x)
    · exact fun c hc hw => collapseWs_ws_space x c (hysub c hc) hw
    · exact fun c hc => hnull c (hysub c hc)
    · exact fun hm => noNl_collapseWs x (hysub '\n' hm)
    · rw [h]
      exact pyStrip_idem (collapseWs x)

/-- On NUL-free input, a second run of the normalizer changes nothing. -/
theorem cleanText_idem_nullFree (x : List Char) (hx : nullFree x = true) :
    cleanText (cleanText x) = cleanText x := by
  rcases cleanText_nullFree_facts x hx with h | ⟨hws, hsp, hnf, hnl, hstrip, hlen⟩
  · rw [h, cleanText_nil]
  · have hcws : collapseWs (cleanText x) = cleanText x := collapseWs_eq_self _ hws hsp
    show joinWith '\n' _ = cleanText x
    rw [hcws, collapseNl_eq_self _ hnl, List.filter_eq_self.mpr hnf,
      pySplitChar_of_not_mem hnl, List.map_cons, List.map_nil, hstrip,
      List.filter_cons_of_pos (by simpa using hlen), List.filter_nil]
    exact joinWith_single '\n' (cleanText x)

/-! Relating the replace-all of the source with the suffix-strip of the
spec. -/

theorem removePdf_eq_strip :
    ∀ l : List Char, hasInnerPdf l = false → removePdf l = stripPdfSuffix l := by
  intro l
  induction l using removePdf.induct with
  | case1 rest ih =>
    intro hin
    cases rest with
    | cons x xs =>
      rw [hasInnerPdf.eq_1] at hin
      exact Bool.noConfusion hin
    | nil => decide
  | case2 c rest hne ih =>
    intro hin
    have hstep : hasInnerPdf (c :: rest) = hasInnerPdf rest :=
      hasInnerPdf.eq_2 c rest (fun h1 t hc hr => hne (h1 :: t) hc hr)
    have hinner : hasInnerPdf rest = false := by rw [← hstep]; exact hin
    rw [removePdf.eq_2 c rest hne, ih hinner]
    by_cases hsuf : 4 ≤ rest.length ∧ rest.drop (rest.length - 4) = pdfChars
    · unfold stripPdfSuffix
      rw [if_pos hsuf]
      have harith : rest.length + 1 - 4 = (rest.length - 4) + 1 := by
        have := hsuf.1
        omega
      have hc4 : 4 ≤ (c :: rest).length := by
        simp only [List.length_cons]
        omega
      have hdrop : (c :: rest).drop ((c :: rest).length - 4) = pdfChars := by
        simp only [List.length_cons]
        rw [harith, List.drop_succ_cons]
        exact hsuf.2
      rw [if_pos ⟨hc4, hdrop⟩]
      simp only [List.length_cons]
      rw [harith, List.take_succ_cons]
    · unfold stripPdfSuffix
      rw [if_neg hsuf]
      have hncond :
          ¬(4 ≤ (c :: rest).length ∧ (c :: rest).drop ((c :: rest).length - 4) = pdfChars) := by
        rintro ⟨h4, hdrop⟩
        simp only [List.length_cons] at h4 hdrop
        by_cases hclen : 4 ≤ rest.length
        · have harith : rest.length + 1 - 4 = (rest.length - 4) + 1 := by omega
          rw [harith, List.drop_succ_cons] at hdrop
          exact hsuf ⟨hclen, hdrop⟩
        · have harith : rest.length + 1 - 4 = 0 := by omega
          rw [harith, List.drop_zero] at hdrop
          have hc : c = '.' := by
            have := congrArg (fun l => List.head? l) hdrop
            simpa [pdfChars] using this
          have hcs : rest = ['p', 'd', 'f'] := by
            have := congrArg (fun l => List.tail l) hdrop
            simpa [pdfChars] using this
          exact hne [] hc hcs
      rw [if_neg hncond]
  | case3 => intro _; decide

theorem chunkText_noNl_len (maxS ov : Nat) (y src : List Char) (hnl : '\n' ∉ y) :
    (chunkText maxS ov y src).length ≤ 1 := by
  have hfold : chunkFold maxS ov y src = ⟨[], y, 0⟩ := by
    unfold chunkFold
    rw [pySplitNN_of_noNl y hnl]
    simp only [List.foldl_cons, List.foldl_nil]
    by_cases hg : maxS < ([] : List Char).length + y.length
    · rw [chunkStep_seed _ _ _ _ _ hg rfl]
    · rw [chunkStep_append _ _ _ _ _ hg]
      rw [if_pos rfl]
  rw [chunkText_def, hfold]
  by_cases hs : pyStrip y = []
  · rw [if_pos hs]
    simp
  · rw [if_neg hs]
    simp

/-! The claims. -/

/-- Claim C1, counterexample: with `maxChunkSize = 10` and no overlap, the
input of two five-character paragraphs has no paragraph above the bound,
yet the chunker emits a fragment of length 12, because the blank-line
join adds two uncounted characters.  This refutes the claim that only
fragments seeded from a single oversized paragraph may exceed the
bound. -/
theorem chunk_size_bound_counterexample :
    ((pySplitNN "aaaaa\n\nbbbbb".toList).all (fun p => p.length ≤ 10) = true) ∧
    ((chunkText 10 0 "aaaaa\n\nbbbbb".toList "src".toList).any
      (fun ch => 10 < ch.text.length) = true) := by
  constructor
  · decide
  · decide

/-- Claim C1, amended: every fragment whose text still contains a
blank-line separator has length at most `maxChunkSize + 2`; fragments
without a separator are single seeds (an oversized paragraph, possibly
preceded by overlap words) and may exceed the bound. -/
theorem chunk_size_bound_amended (maxS ov : Nat) (text src : List Char) :
    ∀ ch ∈ chunkText maxS ov text src,
      hasNN ch.text = true → ch.text.length ≤ maxS + 2 := by
  intro ch hch hN
  obtain ⟨hchunks, hcur⟩ := chunkFold_sizeBound maxS ov text src
  rcases mem_chunkText hch with h1 | ⟨h2, hne⟩
  · exact hchunks ch h1 hN
  · rw [h2] at hN ⊢
    exact emitted_size_bound hcur hN

/-- Witness for the amended C1 bound at a concrete two-paragraph
input. -/
theorem chunk_size_bound_amended_witness :
    mkChunk "src".toList 0 "aaaa\n\nbbbb".toList ∈
        chunkText 100 0 "aaaa\n\nbbbb".toList "src".toList ∧
      hasNN (mkChunk "src".toList 0 "aaaa\n\nbbbb".toList).text = true ∧
      (mkChunk "src".toList 0 "aaaa\n\nbbbb".toList).text.length ≤ 100 + 2 :=
  ⟨by decide, by decide,
    chunk_size_bound_amended 100 0 "aaaa\n\nbbbb".toList "src".toList
      (mkChunk "src".toList 0 "aaaa\n\nbbbb".toList) (by decide) (by decide)⟩

/-- Claim C2, counterexample: removing a NUL character that separated two
whitespace runs leaves a double space, so one more normalizer pass still
changes the text: the normalizer is not idempotent on inputs containing
NUL characters. -/
theorem normalize_idempotence_counterexample :
    cleanText (cleanText "aaaaaaaaaa \x00 bbbbbbbbbb".toList) ≠
      cleanText "aaaaaaaaaa \x00 bbbbbbbbbb".toList := by
  decide

/-- Claim C2, amended: on every input without NUL characters the
normalizer is idempotent. -/
theorem normalize_idempotent_nullfree (x : List Char) (hx : nullFree x = true) :
    cleanText (cleanText x) = cleanText x :=
  cleanText_idem_nullFree x hx

/-- Witness for the amended C2 idempotence at a concrete NUL-free
input. -/
theorem normalize_idempotent_nullfree_witness :
    nullFree "  hello   world again ".toList = true ∧
      cleanText (cleanText "  hello   world again ".toList) =
        cleanText "  hello   world again ".toList :=
  ⟨by decide, normalize_idempotent_nullfree "  hello   world again ".toList (by decide)⟩

/-- Claim C3, counterexample: the same NUL-separated whitespace input
makes the normalizer output contain two consecutive spaces, refuting the
whitespace bound as stated for all inputs. -/
theorem normalize_whitespace_counterexample :
    noPair spPair (cleanText "aaaaaaaaaa \x00 bbbbbbbbbb".toList) = false := by
  decide

/-- Claim C3, amended: for every input the normalizer output contains no
newline at all (hence no two consecutive newlines), no NUL character,
and is either empty or a single line of length above 10; for NUL-free
input it additionally contains no two consecutive spaces. -/
theorem normalize_invariants_nullfree (x : List Char) :
    '\n' ∉ cleanText x ∧
      nullFree (cleanText x) = true ∧
      (cleanText x = [] ∨ 10 < (cleanText x).length) ∧
      (nullFree x = true → noPair spPair (cleanText x) = true) := by
  refine ⟨cleanText_noNl x, ?_, ?_, ?_⟩
  · rcases cleanText_cases x with h | ⟨h, _⟩
    · rw [h]; rfl
    · unfold nullFree
      apply List.all_eq_true.mpr
      intro c hc
      rw [h] at hc
      have hm : c ∈ (collapseWs x).filter (fun c2 => c2 != nullChar) := pyStrip_subset hc
      simpa using List.of_mem_filter hm
  · rcases cleanText_cases x with h | ⟨_, hlen⟩
    · exact Or.inl h
    · exact Or.inr hlen
  · intro hx
    rcases cleanText_nullFree_facts x hx with h | ⟨hws, _, _, _, _, _⟩
    · rw [h]; rfl
    · apply noPair_mono spPair wsPair ?_ _ hws
      intro a b hab
      unfold spPair at hab
      simp only [Bool.and_eq_true, beq_iff_eq] at hab
      unfold wsPair
      rw [hab.1, hab.2]
      decide

/-- Witness for the amended C3 invariants, exercising the NUL-free
hypothesis of the double-space conjunct at a concrete input. -/
theorem normalize_invariants_nullfree_witness :
    nullFree "first  line\nsecond line here".toList = true ∧
      noPair spPair (cleanText "first  line\nsecond line here".toList) = true ∧
      '\n' ∉ cleanText "first  line\nsecond line here".toList :=
  ⟨by decide,
    (normalize_invariants_nullfree "first  line\nsecond line here".toList).2.2.2
      (by decide),
    (normalize_invariants_nullfree "first  line\nsecond line here".toList).1⟩

/-- Claim C4, counterexample: a whitespace-only paragraph between two
overlong paragraphs is emitted as a fragment whose stripped text is
empty, refuting non-emptiness for arbitrary chunker input. -/
theorem fragment_nonempty_counterexample :
    (chunkText 2 0 "aaa\n\n \n\nbbb".toList "src".toList).any
      (fun ch => ch.text.isEmpty) = true := by
  decide

/-- Claim C4, amended: when every blank-line paragraph of the input is
empty or contains a non-whitespace character (true of all
pipeline-normalized text), every emitted fragment has non-empty text. -/
theorem fragment_nonempty_amended (maxS ov : Nat) (text src : List Char)
    (hgood : goodParas text = true) :
    ∀ ch ∈ chunkText maxS ov text src, ch.text ≠ [] := by
  intro ch hch
  obtain ⟨hchunks, hcur⟩ := chunkFold_nonEmpty maxS ov text src hgood
  rcases mem_chunkText hch with h1 | ⟨h2, hne⟩
  · exact hchunks ch h1
  · rw [h2]
    exact hne

/-- Witness for the amended C4 non-emptiness at a concrete input. -/
theorem fragment_nonempty_amended_witness :
    goodParas "aaaaaaaaaaaa".toList = true ∧
      mkChunk "s".toList 0 "aaaaaaaaaaaa".toList ∈
        chunkText 5 0 "aaaaaaaaaaaa".toList "s".toList ∧
      (mkChunk "s".toList 0 "aaaaaaaaaaaa".toList).text ≠ [] :=
  ⟨by decide, by decide,
    fragment_nonempty_amended 5 0 "aaaaaaaaaaaa".toList "s".toList (by decide)
      (mkChunk "s".toList 0 "aaaaaaaaaaaa".toList) (by decide)⟩

/-- Claim C5, counterexample: the all-whitespace input of two one-space
paragraphs with `maxChunkSize = 1` makes the chunker emit one
(empty-text) fragment, refuting the claim that fully blank input always
yields an empty sequence. -/
theorem chunker_blank_counterexample :
    (" \n\n ".toList.all isWs = true) ∧
      chunkText 1 0 " \n\n ".toList "src".toList ≠ [] := by
  constructor
  · decide
  · decide

/-- Claim C5, amended: the chunker is total (never raises); the empty
input yields an empty fragment sequence for every configuration, and an
all-whitespace input yields only fragments whose text is empty (possibly
none). -/
theorem chunker_blank_amended (maxS ov : Nat) (text src : List Char) :
    (text = [] → chunkText maxS ov text src = []) ∧
      (text.all isWs = true → ∀ ch ∈ chunkText maxS ov text src, ch.text = []) := by
  constructor
  · intro h
    subst h
    have hfold : chunkFold maxS ov [] src = ⟨[], [], 0⟩ := by
      unfold chunkFold
      rw [show pySplitNN [] = [[]] from rfl]
      simp only [List.foldl_cons, List.foldl_nil]
      rw [chunkStep_append _ _ _ _ _ (by simp)]
      rw [if_pos rfl]
    rw [chunkText_def, hfold]
    rw [if_pos (by decide)]
  · intro hblank ch hch
    obtain ⟨hchunks, hcur⟩ := chunkFold_blank maxS ov text src hblank
    rcases mem_chunkText hch with h1 | ⟨h2, hne⟩
    · exact hchunks ch h1
    · exact absurd (pyStrip_eq_nil_of_all hcur) hne

/-- Witness for the amended C5 behavior: empty input yields no fragments,
and the blank-input fragment of the counterexample configuration has
empty text. -/
theorem chunker_blank_amended_witness :
    chunkText 7 3 [] "src".toList = [] ∧
      (" \n\n ".toList.all isWs = true) ∧
      mkChunk "src".toList 0 " ".toList ∈ chunkText 1 0 " \n\n ".toList "src".toList ∧
      (mkChunk "src".toList 0 " ".toList).text = [] :=
  ⟨(chunker_blank_amended 7 3 [] "src".toList).1 rfl, by decide, by decide,
    (chunker_blank_amended 1 0 " \n\n ".toList "src".toList).2 (by decide)
      (mkChunk "src".toList 0 " ".toList) (by decide)⟩

/-- Claim C6: the metadata indices of the emitted fragments are exactly
0..N-1 in order, and each fragment id is the source followed by the
literal under-score chunk marker and the decimal index. -/
theorem chunk_index_contiguity (maxS ov : Nat) (text src : List Char) :
    (chunkText maxS ov text src).map (fun ch => ch.chunk_id) =
      List.range (chunkText maxS ov text src).length ∧
    (chunkText maxS ov text src).map (fun ch => ch.id) =
      (List.range (chunkText maxS ov text src).length).map
        (fun i => src ++ chunkLit ++ Nat.toDigits 10 i) := by
  obtain ⟨h1, h2, h3⟩ := chunkFold_ids maxS ov text src
  rw [chunkText_def]
  by_cases hc : pyStrip (chunkFold maxS ov text src).cur = []
  · rw [if_pos hc]
    exact ⟨h2, h3⟩
  · rw [if_neg hc]
    constructor
    · simp only [List.map_append, List.map_cons, List.map_nil, List.length_append,
        List.length_cons, List.length_nil, mkChunk]
      rw [h2, h1, List.range_succ]
    · simp only [List.map_append, List.map_cons, List.map_nil, List.length_append,
        List.length_cons, List.length_nil, mkChunk]
      rw [h3, h1, List.range_succ]
      simp

/-- Claim C7: when a fragment is emitted mid-loop with positive overlap,
the next accumulator is the last `overlapWordCount` words of the emitted
accumulator (all of them when fewer exist) joined by single spaces,
followed by one space and the current paragraph. -/
theorem overlap_seed_spec (maxS ov : Nat) (src : List Char) (st : ChunkState)
    (p : List Char) (hcur : st.cur ≠ []) (hg : maxS < st.cur.length + p.length)
    (hov : 0 < ov) :
    (chunkStep maxS ov src st p).cur =
      joinWith ' ' (lastWords ov (pyWords st.cur)) ++ ' ' :: p ∧
    (chunkStep maxS ov src st p).chunks = st.chunks ++ [mkChunk src st.cid st.cur] := by
  rw [chunkStep_emit _ _ _ _ _ hg hcur]
  have hlw : (if ov < (pyWords st.cur).length
      then (pyWords st.cur).drop ((pyWords st.cur).length - ov)
      else pyWords st.cur) = lastWords ov (pyWords st.cur) := by
    unfold lastWords
    by_cases hA : ov < (pyWords st.cur).length
    · rw [if_pos hA, if_neg (by omega)]
    · rw [if_neg hA]
      by_cases hB : (pyWords st.cur).length < ov
      · rw [if_pos hB]
      · rw [if_neg hB]
        have h0 : (pyWords st.cur).length - ov = 0 := by omega
        rw [h0, List.drop_zero]
  constructor
  · show (if 0 < ov then _ else p) = _
    rw [if_pos hov, hlw]
  · rfl

/-- Witness for the C7 overlap seeding at a concrete state. -/
theorem overlap_seed_spec_witness :
    ("aa bb cc".toList ≠ []) ∧ (5 < "aa bb cc".toList.length + "dddd".toList.length) ∧
      (chunkStep 5 2 "s".toList ⟨[], "aa bb cc".toList, 0⟩ "dddd".toList).cur =
        joinWith ' ' (lastWords 2 (pyWords "aa bb cc".toList)) ++ ' ' :: "dddd".toList :=
  ⟨by decide, by decide,
    (overlap_seed_spec 5 2 "s".toList ⟨[], "aa bb cc".toList, 0⟩ "dddd".toList
      (by decide) (by decide) (by decide)).1⟩

/-- Claim C8, counterexample: the source replaces every occurrence of the
extension, so a base name containing it twice loses both, while the
specified suffix strip would keep the inner one. -/
theorem source_name_counterexample :
    sourceName "docs/report.pdf.pdf".toList ≠
      stripPdfSuffix (basename "docs/report.pdf.pdf".toList) := by
  decide

/-- Claim C8, amended: the source name deletes every occurrence of the
extension from the base name; when the base name contains no occurrence
other than a final suffix, this coincides with stripping the suffix. -/
theorem source_name_amended (p : List Char)
    (h : hasInnerPdf (basename p) = false) :
    sourceName p = stripPdfSuffix (basename p) :=
  removePdf_eq_strip (basename p) h

/-- Witness for the amended C8 derivation on a well-behaved path. -/
theorem source_name_amended_witness :
    hasInnerPdf (basename "a/b.pdf".toList) = false ∧
      sourceName "a/b.pdf".toList = stripPdfSuffix (basename "a/b.pdf".toList) :=
  ⟨by decide, source_name_amended "a/b.pdf".toList (by decide)⟩

/-- Claim C9: the newline-collapse pass of the normalizer is dead code:
the normalizer equals the variant that omits it, for every input. -/
theorem normalize_second_pass_dead (t : List Char) :
    cleanText t = cleanTextSinglePass t :=
  cleanText_eq_singlePass t

/-- Claim C10: chunking pipeline-normalized text yields at most one
fragment, because the normalizer output never contains a newline, so the
blank-line paragraph separator cannot occur. -/
theorem pipeline_single_fragment (maxS ov : Nat) (x src : List Char) :
    (chunkText maxS ov (cleanText x) src).length ≤ 1 :=
  chunkText_noNl_len maxS ov (cleanText x) src (cleanText_noNl x)

end TupaRag
